import Mathlib

/-!
Shallow embedding of `src/certmanager/lru.go` (package `certmanager`):
a bounded, time-aware LRU cache of TLS certificates.

Correspondence with the Go source:

* The certificate value `*tls.Certificate` is opaque to the cache, so it is a
  type parameter `α`; `Get` returns `Option α`, with `none` playing the role
  of Go's `nil` ("absent").
* `time.Time` / `time.Now().Unix()` timestamps are `Int` (Unix seconds);
  every operation that reads the clock takes the current time `now : Int`
  as an explicit argument.
* The Go map `map[string]cacheEntry` is an association list
  `List (String × cacheEntry α)`; `mapLookup`, `mapInsert`, `mapErase` embed
  map indexing, assignment and `delete`.
* The recency list `container/list.List` stores the host keys, front =
  most-recently-used.  The Go `listElement` back-pointer of an entry is
  represented by that key's occurrence in the list, so
  `MoveToFront(e.listElement)` becomes "erase the key, cons it in front",
  `Back()` becomes `getLast?` and `Remove(back)` becomes `dropLast`.
* `list.Back()` returns `nil` on an empty list and the subsequent
  `Remove` / type assertion would panic; `Put` therefore returns
  `Option` state, `none` embedding that panic branch.
-/

namespace Certmanager

/-- One cached certificate: the certificate value and its absolute expiry
timestamp in Unix seconds (`expiresAt.Unix()` in the source).  The Go field
`listElement` is a pointer into the recency list; here the recency list
stores the keys themselves, so that pointer is the key's occurrence there. -/
structure cacheEntry (α : Type) where
  cert : α
  expiresAt : Int
  deriving DecidableEq, Repr

/-- Keys bound in the association list embedding `map[string]cacheEntry`. -/
def keys {α : Type} (m : List (String × cacheEntry α)) : List String :=
  m.map Prod.fst

/-- Map indexing `c.cache[host]`: the value of the first (and, in every
reachable state, only) binding of `k`. -/
def mapLookup {α : Type} (k : String) :
    List (String × cacheEntry α) → Option (cacheEntry α)
  | [] => none
  | p :: m => if p.1 = k then some p.2 else mapLookup k m

/-- Map deletion `delete(c.cache, k)`: removes the binding of `k`
(a no-op when `k` is absent, as in Go). -/
def mapErase {α : Type} (k : String) (m : List (String × cacheEntry α)) :
    List (String × cacheEntry α) :=
  m.filter (fun p => p.1 ≠ k)

/-- Map assignment `c.cache[host] = entry`: binds `k` to `v`, replacing any
previous binding. -/
def mapInsert {α : Type} (k : String) (v : cacheEntry α)
    (m : List (String × cacheEntry α)) : List (String × cacheEntry α) :=
  (k, v) :: mapErase k m

/-- `CertLRUCache` is an LRU cache of TLS certificates: the capacity bound
`maxSize`, the recency list (front = most-recently-used) and the host → entry
map.  The `sync.Mutex` serialises the operations; in this sequential embedding
operations are already atomic state transformers. -/
structure CertLRUCache (α : Type) where
  maxSize : Nat
  list : List String
  cache : List (String × cacheEntry α)
  deriving DecidableEq, Repr

/-- `NewCertLRUCache` initializes a certificate LRU cache: empty map, empty
list.  The `cleanupInterval` parameter only schedules the background sweeper
goroutine; its per-tick body is embedded as `sweepTick` below and ticks appear
as explicit events, so the interval is not part of the state. -/
def NewCertLRUCache (α : Type) (maxSize : Nat) : CertLRUCache α :=
  { maxSize := maxSize, list := [], cache := [] }

/-- `Get` returns the certificate for the given host, or `none` if it is not
cached; an expired hit is removed from both structures and reported absent,
a live hit is moved to the front of the recency list. -/
def Get {α : Type} (c : CertLRUCache α) (now : Int) (host : String) :
    Option α × CertLRUCache α :=
  match mapLookup host c.cache with
  | none => (none, c)
  | some entry =>
    if now > entry.expiresAt then
      (none, { c with list := c.list.erase host, cache := mapErase host c.cache })
    else
      (some entry.cert, { c with list := host :: c.list.erase host })

/-- `Put` adds the certificate for the given host to the cache.  A present
host is updated in place and moved to the front; a new host first evicts the
back of the recency list when `list.Len() >= maxSize`, then is pushed to the
front.  `none` embeds the panic of `Remove(nil)` when `Back()` finds an empty
list (unreachable for `maxSize ≥ 1`, see the safety theorems). -/
def Put {α : Type} (c : CertLRUCache α) (host : String) (expiresAt : Int)
    (cert : α) : Option (CertLRUCache α) :=
  match mapLookup host c.cache with
  | some _ =>
    some { c with
      list := host :: c.list.erase host
      cache := mapInsert host ⟨cert, expiresAt⟩ c.cache }
  | none =>
    match (if c.list.length ≥ c.maxSize then
        (match c.list.getLast? with
         | none => none
         | some victim =>
           some { c with list := c.list.dropLast
                         cache := mapErase victim c.cache })
      else some c) with
    | none => none
    | some c1 =>
      some { c1 with
        list := host :: c1.list
        cache := mapInsert host ⟨cert, expiresAt⟩ c1.cache }

/-- `Purge` clears the cache: fresh empty map and list. -/
def Purge {α : Type} (c : CertLRUCache α) : CertLRUCache α :=
  { c with list := [], cache := [] }

/-- One step of the sweeper loop body: if the entry under iteration has
expired, remove its list element and delete its map binding. -/
def sweepStep {α : Type} (now : Int) (acc : CertLRUCache α)
    (p : String × cacheEntry α) : CertLRUCache α :=
  if now > p.2.expiresAt then
    { acc with list := acc.list.erase p.1, cache := mapErase p.1 acc.cache }
  else acc

/-- One tick of the background sweeper spawned by `NewCertLRUCache`: iterate
every entry of the map, removing the expired ones from both structures.  The
Go `range` loop deletes only the entry currently under iteration, so folding
over a snapshot of the entries is exact; the per-entry `time.Now()` reads are
a single tick-wide `now`, as the spec models the tick. -/
def sweepTick {α : Type} (c : CertLRUCache α) (now : Int) : CertLRUCache α :=
  c.cache.foldl (sweepStep now) c

/-- An event of the cache's history: a foreground call or a sweeper tick. -/
inductive Op (α : Type) where
  | get (now : Int) (host : String)
  | put (host : String) (expiresAt : Int) (cert : α)
  | purge
  | sweep (now : Int)

/-- Apply one event to the state.  `Put` of a full cache with `maxSize = 0`
would panic in Go; `getD c` leaves the state unchanged there, and the safety
theorems show this case is unreachable for `maxSize ≥ 1`. -/
def applyOp {α : Type} (c : CertLRUCache α) : Op α → CertLRUCache α
  | .get now host => (Get c now host).2
  | .put host t v => (Put c host t v).getD c
  | .purge => Purge c
  | .sweep now => sweepTick c now

/-- Apply a sequence of events in order. -/
def applyOps {α : Type} (c : CertLRUCache α) (ops : List (Op α)) :
    CertLRUCache α :=
  ops.foldl applyOp c

/-- The structural invariant of the cache (spec §3): the recency list and the
key set of the map are duplicate-free, each is contained in the other
(together: the keys of the map are in bijection with the positions of the
recency list), and the list length is bounded by `maxSize`. -/
def Inv {α : Type} (c : CertLRUCache α) : Prop :=
  c.list.Nodup ∧ (keys c.cache).Nodup ∧
    (∀ k ∈ c.list, k ∈ keys c.cache) ∧
    (∀ k ∈ keys c.cache, k ∈ c.list) ∧
    c.list.length ≤ c.maxSize

instance {α : Type} (c : CertLRUCache α) : Decidable (Inv c) := by
  unfold Inv; infer_instance

/-- Some binding in the snapshot `l` with key `k` is expired at `now`. -/
def expiredIn {α : Type} (now : Int) (l : List (String × cacheEntry α))
    (k : String) : Prop :=
  ∃ p ∈ l, p.1 = k ∧ now > p.2.expiresAt

instance {α : Type} (now : Int) (l : List (String × cacheEntry α))
    (k : String) : Decidable (expiredIn now l k) := by
  unfold expiredIn; infer_instance

/-! ### Association-list lemmas -/

variable {α : Type}

theorem keys_nil : keys ([] : List (String × cacheEntry α)) = [] := rfl

theorem keys_cons (p : String × cacheEntry α) (m : List (String × cacheEntry α)) :
    keys (p :: m) = p.1 :: keys m := rfl

theorem mapErase_cons (k : String) (p : String × cacheEntry α)
    (m : List (String × cacheEntry α)) :
    mapErase k (p :: m) =
      if p.1 = k then mapErase k m else p :: mapErase k m := by
  simp only [mapErase, List.filter_cons]
  by_cases h : p.1 = k <;> simp [h]

theorem mapLookup_eq_none {k : String} {m : List (String × cacheEntry α)} :
    mapLookup k m = none ↔ k ∉ keys m := by
  induction m with
  | nil => simp [mapLookup, keys_nil]
  | cons p m ih =>
    by_cases h : p.1 = k
    · simp [mapLookup, h, keys_cons]
    · have h' : ¬ k = p.1 := fun he => h he.symm
      simp [mapLookup, h, keys_cons, ih, h']

theorem mapLookup_isSome {k : String} {m : List (String × cacheEntry α)} :
    (mapLookup k m).isSome ↔ k ∈ keys m := by
  rw [Option.isSome_iff_ne_none, Ne, mapLookup_eq_none, not_not]

theorem mapLookup_mem {k : String} {e : cacheEntry α}
    {m : List (String × cacheEntry α)} (h : mapLookup k m = some e) :
    (k, e) ∈ m := by
  induction m with
  | nil => simp [mapLookup] at h
  | cons p m ih =>
    obtain ⟨a, b⟩ := p
    by_cases hp : a = k
    · subst hp
      simp only [mapLookup, if_pos rfl] at h
      obtain rfl := Option.some.inj h
      exact List.mem_cons_self _ _
    · simp only [mapLookup, if_neg hp] at h
      exact List.mem_cons_of_mem _ (ih h)

theorem mem_mapLookup {k : String} {e : cacheEntry α}
    {m : List (String × cacheEntry α)} (hn : (keys m).Nodup)
    (h : (k, e) ∈ m) : mapLookup k m = some e := by
  induction m with
  | nil => simp at h
  | cons p m ih =>
    rw [keys_cons, List.nodup_cons] at hn
    rcases List.mem_cons.1 h with h | h
    · subst h; simp [mapLookup]
    · have hk : k ∈ keys m := List.mem_map_of_mem Prod.fst h
      have hp : p.1 ≠ k := fun he => hn.1 (he ▸ hk)
      simp only [mapLookup, if_neg hp]
      exact ih hn.2 h

theorem keys_mapErase (k : String) (m : List (String × cacheEntry α)) :
    keys (mapErase k m) = (keys m).filter (fun x => x ≠ k) := by
  induction m with
  | nil => rfl
  | cons p m ih =>
    by_cases h : p.1 = k <;>
      simp [mapErase, keys_cons, h, List.filter_cons] at ih ⊢ <;>
      simpa [mapErase] using ih

theorem mem_keys_mapErase {x k : String} {m : List (String × cacheEntry α)} :
    x ∈ keys (mapErase k m) ↔ x ∈ keys m ∧ x ≠ k := by
  rw [keys_mapErase, List.mem_filter]
  simp

theorem nodup_keys_mapErase {k : String} {m : List (String × cacheEntry α)}
    (h : (keys m).Nodup) : (keys (mapErase k m)).Nodup := by
  rw [keys_mapErase]; exact h.filter _

theorem mapLookup_mapErase_self (k : String) (m : List (String × cacheEntry α)) :
    mapLookup k (mapErase k m) = none := by
  rw [mapLookup_eq_none, mem_keys_mapErase]
  simp

theorem mapLookup_mapErase_ne {x k : String} (m : List (String × cacheEntry α))
    (h : x ≠ k) : mapLookup x (mapErase k m) = mapLookup x m := by
  induction m with
  | nil => rfl
  | cons p m ih =>
    rw [mapErase_cons]
    by_cases hp : p.1 = k
    · have hpx : ¬ p.1 = x := fun he => h (he.symm.trans hp)
      rw [if_pos hp, ih, mapLookup, if_neg hpx]
    · rw [if_neg hp]
      by_cases hx : p.1 = x
      · rw [mapLookup, if_pos hx, mapLookup, if_pos hx]
      · rw [mapLookup, if_neg hx, mapLookup, if_neg hx, ih]

theorem mapErase_of_not_mem {k : String} {m : List (String × cacheEntry α)}
    (h : k ∉ keys m) : mapErase k m = m := by
  rw [mapErase, List.filter_eq_self]
  intro p hp
  simp only [ne_eq, decide_eq_true_eq]
  exact fun he => h (he ▸ List.mem_map_of_mem Prod.fst hp)

theorem length_keys (m : List (String × cacheEntry α)) :
    (keys m).length = m.length := List.length_map m Prod.fst

theorem length_mapErase_of_mem {k : String} {m : List (String × cacheEntry α)}
    (hn : (keys m).Nodup) (h : k ∈ keys m) :
    (mapErase k m).length + 1 = m.length := by
  have h1 : keys (mapErase k m) = (keys m).erase k := by
    rw [keys_mapErase, hn.erase_eq_filter]
    apply List.filter_congr
    intro x _
    by_cases hx : x = k <;> simp [hx, bne_iff_ne]
  rw [← length_keys, ← length_keys m, h1, List.length_erase_of_mem h]
  have : 1 ≤ (keys m).length := List.length_pos.2 (List.ne_nil_of_mem h)
  omega

theorem length_mapErase_le (k : String) (m : List (String × cacheEntry α)) :
    (mapErase k m).length ≤ m.length := List.length_filter_le _ _

theorem mapLookup_mapInsert_self (k : String) (v : cacheEntry α)
    (m : List (String × cacheEntry α)) :
    mapLookup k (mapInsert k v m) = some v := by
  simp [mapInsert, mapLookup]

theorem mapLookup_mapInsert_ne {x k : String} (v : cacheEntry α)
    (m : List (String × cacheEntry α)) (h : x ≠ k) :
    mapLookup x (mapInsert k v m) = mapLookup x m := by
  have : k ≠ x := fun he => h he.symm
  rw [mapInsert, mapLookup, if_neg this]
  exact mapLookup_mapErase_ne m h

theorem mem_keys_mapInsert {x k : String} {v : cacheEntry α}
    {m : List (String × cacheEntry α)} :
    x ∈ keys (mapInsert k v m) ↔ x = k ∨ x ∈ keys m := by
  rw [mapInsert, keys_cons, List.mem_cons, mem_keys_mapErase]
  constructor
  · rintro (h | ⟨h, _⟩)
    · exact Or.inl h
    · exact Or.inr h
  · rintro (h | h)
    · exact Or.inl h
    · by_cases hx : x = k
      · exact Or.inl hx
      · exact Or.inr ⟨h, hx⟩

theorem nodup_keys_mapInsert {k : String} (v : cacheEntry α)
    {m : List (String × cacheEntry α)} (h : (keys m).Nodup) :
    (keys (mapInsert k v m)).Nodup := by
  rw [mapInsert, keys_cons, List.nodup_cons]
  refine ⟨fun hk => ?_, nodup_keys_mapErase h⟩
  exact (mem_keys_mapErase.1 hk).2 rfl

theorem length_mapInsert_of_not_mem {k : String} (v : cacheEntry α)
    {m : List (String × cacheEntry α)} (h : k ∉ keys m) :
    (mapInsert k v m).length = m.length + 1 := by
  rw [mapInsert, List.length_cons, mapErase_of_not_mem h]

theorem length_mapInsert_of_mem {k : String} (v : cacheEntry α)
    {m : List (String × cacheEntry α)} (hn : (keys m).Nodup)
    (h : k ∈ keys m) : (mapInsert k v m).length = m.length := by
  rw [mapInsert, List.length_cons]
  exact length_mapErase_of_mem hn h

/-! ### Invariant projections and consequences -/

theorem Inv.nodup_list {c : CertLRUCache α} (h : Inv c) : c.list.Nodup := h.1

theorem Inv.nodup_keys {c : CertLRUCache α} (h : Inv c) :
    (keys c.cache).Nodup := h.2.1

theorem Inv.list_sub {c : CertLRUCache α} (h : Inv c) :
    ∀ k ∈ c.list, k ∈ keys c.cache := h.2.2.1

theorem Inv.keys_sub {c : CertLRUCache α} (h : Inv c) :
    ∀ k ∈ keys c.cache, k ∈ c.list := h.2.2.2.1

theorem Inv.size_le {c : CertLRUCache α} (h : Inv c) :
    c.list.length ≤ c.maxSize := h.2.2.2.2

theorem Inv.mem_iff {c : CertLRUCache α} (h : Inv c) (k : String) :
    k ∈ c.list ↔ k ∈ keys c.cache :=
  ⟨h.list_sub k, h.keys_sub k⟩

theorem Inv.length_cache_eq {c : CertLRUCache α} (h : Inv c) :
    c.cache.length = c.list.length := by
  rw [← length_keys]
  exact ((List.perm_ext_iff_of_nodup h.nodup_keys h.nodup_list).2
    (fun k => (h.mem_iff k).symm)).length_eq

theorem Inv_new (α : Type) (maxSize : Nat) : Inv (NewCertLRUCache α maxSize) := by
  refine ⟨List.nodup_nil, List.nodup_nil, ?_, ?_, ?_⟩ <;> simp [NewCertLRUCache, keys_nil]

/-! ### Characterization of Get -/

theorem Get_not_mem {c : CertLRUCache α} {host : String} (now : Int)
    (h : mapLookup host c.cache = none) : Get c now host = (none, c) := by
  simp [Get, h]

theorem Get_expired {c : CertLRUCache α} {host : String} {e : cacheEntry α}
    {now : Int} (h : mapLookup host c.cache = some e) (hx : now > e.expiresAt) :
    Get c now host =
      (none, { c with list := c.list.erase host, cache := mapErase host c.cache }) := by
  simp [Get, h, hx]

theorem Get_live {c : CertLRUCache α} {host : String} {e : cacheEntry α}
    {now : Int} (h : mapLookup host c.cache = some e) (hx : ¬ now > e.expiresAt) :
    Get c now host =
      (some e.cert, { c with list := host :: c.list.erase host }) := by
  simp [Get, h, hx]

/-! ### Characterization of Put -/

theorem Put_update {c : CertLRUCache α} {host : String} {e : cacheEntry α}
    (t : Int) (v : α) (h : mapLookup host c.cache = some e) :
    Put c host t v =
      some { c with list := host :: c.list.erase host
                    cache := mapInsert host ⟨v, t⟩ c.cache } := by
  simp [Put, h]

theorem Put_new_room {c : CertLRUCache α} {host : String} (t : Int) (v : α)
    (h : mapLookup host c.cache = none) (hr : c.list.length < c.maxSize) :
    Put c host t v =
      some { c with list := host :: c.list
                    cache := mapInsert host ⟨v, t⟩ c.cache } := by
  have hn : ¬ c.list.length ≥ c.maxSize := by omega
  simp [Put, h, hn]

theorem Put_new_evict {c : CertLRUCache α} {host : String} (t : Int) (v : α)
    (h : mapLookup host c.cache = none) (hf : c.list.length ≥ c.maxSize)
    {victim : String} (hv : c.list.getLast? = some victim) :
    Put c host t v =
      some { c with list := host :: c.list.dropLast
                    cache := mapInsert host ⟨v, t⟩ (mapErase victim c.cache) } := by
  simp [Put, h, hf, hv]

theorem Put_new_stuck {c : CertLRUCache α} {host : String} (t : Int) (v : α)
    (h : mapLookup host c.cache = none) (hf : c.list.length ≥ c.maxSize)
    (hv : c.list.getLast? = none) : Put c host t v = none := by
  simp [Put, h, hf, hv]

/-! ### dropLast helpers -/

theorem nodup_dropLast {l : List String} (hn : l.Nodup) : l.dropLast.Nodup :=
  (List.dropLast_sublist l).nodup hn

theorem mem_dropLast_of_nodup {l : List String} {v : String} (hn : l.Nodup)
    (hv : l.getLast? = some v) (k : String) :
    k ∈ l.dropLast ↔ k ∈ l ∧ k ≠ v := by
  obtain ⟨ys, rfl⟩ := List.getLast?_eq_some_iff.1 hv
  have hvn : v ∉ ys := by
    rw [List.nodup_append] at hn
    intro hm
    exact hn.2.2 hm (List.mem_singleton_self v)
  rw [List.dropLast_concat, List.mem_append, List.mem_singleton]
  constructor
  · intro hk
    exact ⟨Or.inl hk, fun he => hvn (he ▸ hk)⟩
  · rintro ⟨hk | hk, hne⟩
    · exact hk
    · exact (hne hk).elim

/-! ### Preservation of the invariant -/

theorem Inv_Get {c : CertLRUCache α} (h : Inv c) (now : Int) (host : String) :
    Inv (Get c now host).2 := by
  match hm : mapLookup host c.cache with
  | none =>
    rw [Get_not_mem now hm]
    exact h
  | some e =>
    by_cases hx : now > e.expiresAt
    · rw [Get_expired hm hx]
      refine ⟨h.nodup_list.erase _, nodup_keys_mapErase h.nodup_keys, ?_, ?_, ?_⟩
      · intro k hk
        rw [h.nodup_list.mem_erase_iff] at hk
        exact mem_keys_mapErase.2 ⟨h.list_sub k hk.2, hk.1⟩
      · intro k hk
        rw [mem_keys_mapErase] at hk
        exact (h.nodup_list.mem_erase_iff).2 ⟨hk.2, h.keys_sub k hk.1⟩
      · exact le_trans (List.length_erase_le _ _) h.size_le
    · rw [Get_live hm hx]
      have hin : host ∈ c.list :=
        h.keys_sub host (mapLookup_isSome.1 (by rw [hm]; rfl))
      refine ⟨?_, h.nodup_keys, ?_, ?_, ?_⟩
      · exact List.nodup_cons.2 ⟨h.nodup_list.not_mem_erase, h.nodup_list.erase _⟩
      · intro k hk
        rcases List.mem_cons.1 hk with rfl | hk
        · exact h.list_sub k hin
        · exact h.list_sub k (List.mem_of_mem_erase hk)
      · intro k hk
        rcases eq_or_ne k host with rfl | hne
        · exact List.mem_cons_self _ _
        · exact List.mem_cons_of_mem _
            ((h.nodup_list.mem_erase_iff).2 ⟨hne, h.keys_sub k hk⟩)
      · rw [List.length_cons, List.length_erase_of_mem hin]
        have h1 : 1 ≤ c.list.length := List.length_pos.2 (List.ne_nil_of_mem hin)
        have h2 := h.size_le
        dsimp only
        omega

theorem Inv_Put {c : CertLRUCache α} (h : Inv c) (host : String) (t : Int)
    (v : α) : Inv ((Put c host t v).getD c) := by
  match hm : mapLookup host c.cache with
  | some e =>
    rw [Put_update t v hm, Option.getD_some]
    have hin : host ∈ c.list :=
      h.keys_sub host (mapLookup_isSome.1 (by rw [hm]; rfl))
    refine ⟨?_, nodup_keys_mapInsert _ h.nodup_keys, ?_, ?_, ?_⟩
    · exact List.nodup_cons.2 ⟨h.nodup_list.not_mem_erase, h.nodup_list.erase _⟩
    · intro k hk
      rcases List.mem_cons.1 hk with rfl | hk
      · exact mem_keys_mapInsert.2 (Or.inl rfl)
      · exact mem_keys_mapInsert.2
          (Or.inr (h.list_sub k (List.mem_of_mem_erase hk)))
    · intro k hk
      rcases eq_or_ne k host with rfl | hne
      · exact List.mem_cons_self _ _
      · rcases mem_keys_mapInsert.1 hk with rfl | hk
        · exact List.mem_cons_self _ _
        · exact List.mem_cons_of_mem _
            ((h.nodup_list.mem_erase_iff).2 ⟨hne, h.keys_sub k hk⟩)
    · rw [List.length_cons, List.length_erase_of_mem hin]
      have h1 : 1 ≤ c.list.length := List.length_pos.2 (List.ne_nil_of_mem hin)
      have h2 := h.size_le
      dsimp only
      omega
  | none =>
    have hnk : host ∉ keys c.cache := mapLookup_eq_none.1 hm
    have hnl : host ∉ c.list := fun hk => hnk (h.list_sub host hk)
    by_cases hr : c.list.length < c.maxSize
    · rw [Put_new_room t v hm hr, Option.getD_some]
      refine ⟨List.nodup_cons.2 ⟨hnl, h.nodup_list⟩,
        nodup_keys_mapInsert _ h.nodup_keys, ?_, ?_, ?_⟩
      · intro k hk
        rcases List.mem_cons.1 hk with rfl | hk
        · exact mem_keys_mapInsert.2 (Or.inl rfl)
        · exact mem_keys_mapInsert.2 (Or.inr (h.list_sub k hk))
      · intro k hk
        rcases mem_keys_mapInsert.1 hk with rfl | hk
        · exact List.mem_cons_self _ _
        · exact List.mem_cons_of_mem _ (h.keys_sub k hk)
      · rw [List.length_cons]
        dsimp only
        omega
    · have hf : c.list.length ≥ c.maxSize := by omega
      match hl : c.list.getLast? with
      | none =>
        rw [Put_new_stuck t v hm hf hl, Option.getD_none]
        exact h
      | some victim =>
        rw [Put_new_evict t v hm hf hl, Option.getD_some]
        have hvl : victim ∈ c.list := List.mem_of_getLast?_eq_some hl
        have hvk : victim ∈ keys c.cache := h.list_sub victim hvl
        have hlen : 1 ≤ c.list.length :=
          List.length_pos.2 (List.ne_nil_of_mem hvl)
        have hmemd := mem_dropLast_of_nodup h.nodup_list hl
        refine ⟨?_, nodup_keys_mapInsert _ (nodup_keys_mapErase h.nodup_keys),
            ?_, ?_, ?_⟩
        · refine List.nodup_cons.2 ⟨?_, nodup_dropLast h.nodup_list⟩
          intro hk
          exact hnl ((hmemd host).1 hk).1
        · intro k hk
          rcases List.mem_cons.1 hk with rfl | hk
          · exact mem_keys_mapInsert.2 (Or.inl rfl)
          · obtain ⟨hk1, hk2⟩ := (hmemd k).1 hk
            exact mem_keys_mapInsert.2
              (Or.inr (mem_keys_mapErase.2 ⟨h.list_sub k hk1, hk2⟩))
        · intro k hk
          rcases mem_keys_mapInsert.1 hk with rfl | hk
          · exact List.mem_cons_self _ _
          · obtain ⟨hk1, hk2⟩ := mem_keys_mapErase.1 hk
            exact List.mem_cons_of_mem _
              ((hmemd k).2 ⟨h.keys_sub k hk1, hk2⟩)
        · rw [List.length_cons, List.length_dropLast]
          have h2 := h.size_le
          dsimp only
          omega

theorem Inv_Purge {c : CertLRUCache α} (_ : Inv c) : Inv (Purge c) := by
  refine ⟨List.nodup_nil, List.nodup_nil, ?_, ?_, ?_⟩ <;> simp [Purge, keys_nil]

/-! ### Sweep tick lemmas -/

theorem expiredIn_cons_of_not {now : Int} {p : String × cacheEntry α}
    {l : List (String × cacheEntry α)} {k : String}
    (h : ¬ (p.1 = k ∧ now > p.2.expiresAt)) :
    expiredIn now (p :: l) k ↔ expiredIn now l k := by
  constructor
  · rintro ⟨q, hq, hqk, hqx⟩
    rcases List.mem_cons.1 hq with rfl | hq
    · exact absurd ⟨hqk, hqx⟩ h
    · exact ⟨q, hq, hqk, hqx⟩
  · rintro ⟨q, hq, hqk, hqx⟩
    exact ⟨q, List.mem_cons_of_mem _ hq, hqk, hqx⟩

theorem sweepStep_cache_lookup_eq {now : Int} {acc : CertLRUCache α}
    {p : String × cacheEntry α} {k : String}
    (h : ¬ (p.1 = k ∧ now > p.2.expiresAt)) :
    mapLookup k (sweepStep now acc p).cache = mapLookup k acc.cache := by
  unfold sweepStep
  by_cases hx : now > p.2.expiresAt
  · rw [if_pos hx]
    have hne : k ≠ p.1 := fun he2 => h ⟨he2.symm, hx⟩
    exact mapLookup_mapErase_ne _ hne
  · rw [if_neg hx]

theorem sweep_foldl_lookup_none (now : Int) (l : List (String × cacheEntry α))
    {acc : CertLRUCache α} {k : String} (h : mapLookup k acc.cache = none) :
    mapLookup k (l.foldl (sweepStep now) acc).cache = none := by
  induction l generalizing acc with
  | nil => exact h
  | cons p l ih =>
    rw [List.foldl_cons]
    apply ih
    unfold sweepStep
    split
    · dsimp only
      by_cases hk : k = p.1
      · rw [hk]
        exact mapLookup_mapErase_self _ _
      · rw [mapLookup_mapErase_ne _ hk]
        exact h
    · exact h

theorem sweep_foldl_lookup (now : Int) (l : List (String × cacheEntry α))
    (acc : CertLRUCache α) (k : String) :
    mapLookup k (l.foldl (sweepStep now) acc).cache =
      if expiredIn now l k then none else mapLookup k acc.cache := by
  induction l generalizing acc with
  | nil =>
    have : ¬ expiredIn now ([] : List (String × cacheEntry α)) k := by
      rintro ⟨q, hq, _⟩
      simp at hq
    rw [List.foldl_nil, if_neg this]
  | cons p l ih =>
    rw [List.foldl_cons, ih]
    by_cases hpk : p.1 = k ∧ now > p.2.expiresAt
    · have he : expiredIn now (p :: l) k :=
        ⟨p, List.mem_cons_self _ _, hpk.1, hpk.2⟩
      rw [if_pos he]
      by_cases hel : expiredIn now l k
      · rw [if_pos hel]
      · rw [if_neg hel]
        unfold sweepStep
        rw [if_pos hpk.2]
        dsimp only
        rw [hpk.1]
        exact mapLookup_mapErase_self _ _
    · simp only [expiredIn_cons_of_not hpk, sweepStep_cache_lookup_eq hpk]

theorem sweepStep_list_nodup {now : Int} {acc : CertLRUCache α}
    {p : String × cacheEntry α} (h : acc.list.Nodup) :
    (sweepStep now acc p).list.Nodup := by
  unfold sweepStep
  split
  · exact h.erase _
  · exact h

theorem sweep_foldl_list_nodup (now : Int) (l : List (String × cacheEntry α))
    {acc : CertLRUCache α} (h : acc.list.Nodup) :
    (l.foldl (sweepStep now) acc).list.Nodup := by
  induction l generalizing acc with
  | nil => exact h
  | cons p l ih =>
    rw [List.foldl_cons]
    exact ih (sweepStep_list_nodup h)

theorem sweep_foldl_list_mem (now : Int) (l : List (String × cacheEntry α))
    {acc : CertLRUCache α} (hnd : acc.list.Nodup) (k : String) :
    k ∈ (l.foldl (sweepStep now) acc).list ↔
      k ∈ acc.list ∧ ¬ expiredIn now l k := by
  induction l generalizing acc with
  | nil =>
    have : ¬ expiredIn now ([] : List (String × cacheEntry α)) k := by
      rintro ⟨q, hq, _⟩
      simp at hq
    rw [List.foldl_nil]
    exact (and_iff_left this).symm
  | cons p l ih =>
    rw [List.foldl_cons, ih (sweepStep_list_nodup hnd)]
    by_cases hpk : p.1 = k ∧ now > p.2.expiresAt
    · have hout : k ∉ (sweepStep now acc p).list := by
        unfold sweepStep
        rw [if_pos hpk.2]
        dsimp only
        rw [hpk.1]
        exact hnd.not_mem_erase
      have he : expiredIn now (p :: l) k :=
        ⟨p, List.mem_cons_self _ _, hpk.1, hpk.2⟩
      constructor
      · rintro ⟨hk, _⟩
        exact absurd hk hout
      · rintro ⟨_, hne⟩
        exact absurd he hne
    · have hmem : k ∈ (sweepStep now acc p).list ↔ k ∈ acc.list := by
        unfold sweepStep
        by_cases hx : now > p.2.expiresAt
        · rw [if_pos hx]
          dsimp only
          have hne : k ≠ p.1 := fun he2 => hpk ⟨he2.symm, hx⟩
          rw [hnd.mem_erase_iff]
          exact and_iff_right hne
        · rw [if_neg hx]
      rw [hmem, expiredIn_cons_of_not hpk]

theorem sweep_foldl_cache_sublist (now : Int) (l : List (String × cacheEntry α))
    (acc : CertLRUCache α) :
    (l.foldl (sweepStep now) acc).cache.Sublist acc.cache := by
  induction l generalizing acc with
  | nil => exact List.Sublist.refl _
  | cons p l ih =>
    rw [List.foldl_cons]
    refine (ih _).trans ?_
    unfold sweepStep
    split
    · dsimp only
      exact List.filter_sublist _
    · exact List.Sublist.refl _

theorem sweep_foldl_list_sublist (now : Int) (l : List (String × cacheEntry α))
    (acc : CertLRUCache α) :
    (l.foldl (sweepStep now) acc).list.Sublist acc.list := by
  induction l generalizing acc with
  | nil => exact List.Sublist.refl _
  | cons p l ih =>
    rw [List.foldl_cons]
    refine (ih _).trans ?_
    unfold sweepStep
    split
    · dsimp only
      exact List.erase_sublist _ _
    · exact List.Sublist.refl _

theorem sweep_foldl_maxSize (now : Int) (l : List (String × cacheEntry α))
    (acc : CertLRUCache α) :
    (l.foldl (sweepStep now) acc).maxSize = acc.maxSize := by
  induction l generalizing acc with
  | nil => rfl
  | cons p l ih =>
    rw [List.foldl_cons, ih]
    unfold sweepStep
    split <;> rfl

theorem sweep_foldl_no_expired (now : Int) (l : List (String × cacheEntry α))
    (acc : CertLRUCache α) (h : ∀ p ∈ l, ¬ now > p.2.expiresAt) :
    l.foldl (sweepStep now) acc = acc := by
  induction l generalizing acc with
  | nil => rfl
  | cons p l ih =>
    rw [List.foldl_cons,
      show sweepStep now acc p = acc from by
        unfold sweepStep
        rw [if_neg (h p (List.mem_cons_self _ _))]]
    exact ih _ (fun q hq => h q (List.mem_cons_of_mem _ hq))

theorem Inv_sweepTick {c : CertLRUCache α} (h : Inv c) (now : Int) :
    Inv (sweepTick c now) := by
  unfold sweepTick
  refine ⟨sweep_foldl_list_nodup now _ h.nodup_list, ?_, ?_, ?_, ?_⟩
  · have hs : keys (c.cache.foldl (sweepStep now) c).cache |>.Sublist (keys c.cache) :=
      (sweep_foldl_cache_sublist now c.cache c).map Prod.fst
    exact hs.nodup h.nodup_keys
  · intro k hk
    rw [sweep_foldl_list_mem now _ h.nodup_list] at hk
    rw [← mapLookup_isSome, sweep_foldl_lookup, if_neg hk.2, mapLookup_isSome]
    exact h.list_sub k hk.1
  · intro k hk
    rw [← mapLookup_isSome, sweep_foldl_lookup] at hk
    rw [sweep_foldl_list_mem now _ h.nodup_list]
    by_cases he : expiredIn now c.cache k
    · rw [if_pos he] at hk
      simp at hk
    · rw [if_neg he] at hk
      exact ⟨h.keys_sub k (mapLookup_isSome.1 hk), he⟩
  · rw [sweep_foldl_maxSize]
    calc (c.cache.foldl (sweepStep now) c).list.length
        ≤ c.list.length := (sweep_foldl_list_sublist now c.cache c).length_le
      _ ≤ c.maxSize := h.size_le

/-! ### Preservation along a run -/

theorem Inv_applyOp {c : CertLRUCache α} (h : Inv c) (op : Op α) :
    Inv (applyOp c op) := by
  cases op with
  | get now host => exact Inv_Get h now host
  | put host t v => exact Inv_Put h host t v
  | purge => exact Inv_Purge h
  | sweep now => exact Inv_sweepTick h now

theorem Inv_applyOps {c : CertLRUCache α} (h : Inv c) (ops : List (Op α)) :
    Inv (applyOps c ops) := by
  induction ops generalizing c with
  | nil => exact h
  | cons op ops ih =>
    rw [applyOps, List.foldl_cons]
    exact ih (Inv_applyOp h op)

/-! ### Exhaustive case analysis of Put -/

theorem Put_cases (c : CertLRUCache α) (host : String) (t : Int) (v : α) :
    (∃ e, mapLookup host c.cache = some e ∧
       Put c host t v = some { c with list := host :: c.list.erase host,
                                      cache := mapInsert host ⟨v, t⟩ c.cache }) ∨
    (mapLookup host c.cache = none ∧ c.list.length < c.maxSize ∧
       Put c host t v = some { c with list := host :: c.list,
                                      cache := mapInsert host ⟨v, t⟩ c.cache }) ∨
    (mapLookup host c.cache = none ∧ c.list.length ≥ c.maxSize ∧
       ∃ victim, c.list.getLast? = some victim ∧
         Put c host t v =
           some { c with list := host :: c.list.dropLast,
                         cache := mapInsert host ⟨v, t⟩ (mapErase victim c.cache) }) ∨
    (mapLookup host c.cache = none ∧ c.list.length ≥ c.maxSize ∧
       c.list.getLast? = none ∧ Put c host t v = none) := by
  match hm : mapLookup host c.cache with
  | some e => exact Or.inl ⟨e, rfl, Put_update t v hm⟩
  | none =>
    by_cases hr : c.list.length < c.maxSize
    · exact Or.inr (Or.inl ⟨rfl, hr, Put_new_room t v hm hr⟩)
    · have hf : c.list.length ≥ c.maxSize := by omega
      match hl : c.list.getLast? with
      | some victim =>
        exact Or.inr (Or.inr (Or.inl
          ⟨rfl, hf, victim, rfl, Put_new_evict t v hm hf hl⟩))
      | none =>
        exact Or.inr (Or.inr (Or.inr ⟨rfl, hf, rfl, Put_new_stuck t v hm hf hl⟩))

theorem Put_getD_maxSize (c : CertLRUCache α) (host : String) (t : Int)
    (v : α) : ((Put c host t v).getD c).maxSize = c.maxSize := by
  rcases Put_cases c host t v with ⟨e, _, hp⟩ | ⟨_, _, hp⟩ |
      ⟨_, _, victim, _, hp⟩ | ⟨_, _, _, hp⟩ <;>
    rw [hp] <;> rfl

theorem Put_getD_keys_sub (c : CertLRUCache α) (host : String) (t : Int)
    (v : α) (k : String) (hk : k ∈ keys ((Put c host t v).getD c).cache) :
    k = host ∨ k ∈ keys c.cache := by
  rcases Put_cases c host t v with ⟨e, _, hp⟩ | ⟨_, _, hp⟩ |
      ⟨_, _, victim, _, hp⟩ | ⟨_, _, _, hp⟩ <;> rw [hp] at hk
  · rcases mem_keys_mapInsert.1 hk with h | h
    · exact Or.inl h
    · exact Or.inr h
  · rcases mem_keys_mapInsert.1 hk with h | h
    · exact Or.inl h
    · exact Or.inr h
  · rcases mem_keys_mapInsert.1 hk with h | h
    · exact Or.inl h
    · exact Or.inr (mem_keys_mapErase.1 h).1
  · exact Or.inr hk

theorem Put_new_length {c : CertLRUCache α} (h : Inv c)
    (hmax : 1 ≤ c.maxSize) {host : String}
    (hm : mapLookup host c.cache = none) (t : Int) (v : α) :
    ((Put c host t v).getD c).cache.length =
      min c.maxSize (c.cache.length + 1) := by
  have hnk : host ∉ keys c.cache := mapLookup_eq_none.1 hm
  have hlen := h.length_cache_eq
  have hle := h.size_le
  rcases Put_cases c host t v with ⟨e, he, _⟩ | ⟨_, hr, hp⟩ |
      ⟨_, hf, victim, hv, hp⟩ | ⟨_, hf, hv, _⟩
  · rw [hm] at he
    exact absurd he (by simp)
  · rw [hp, Option.getD_some]
    dsimp only
    rw [length_mapInsert_of_not_mem _ hnk]
    omega
  · rw [hp, Option.getD_some]
    dsimp only
    have hvk : victim ∈ keys c.cache :=
      h.list_sub victim (List.mem_of_getLast?_eq_some hv)
    have hnk2 : host ∉ keys (mapErase victim c.cache) :=
      fun hmem => hnk (mem_keys_mapErase.1 hmem).1
    rw [length_mapInsert_of_not_mem _ hnk2]
    have := length_mapErase_of_mem h.nodup_keys hvk
    omega
  · have : c.list = [] := by
      cases hls : c.list with
      | nil => rfl
      | cons a as => rw [hls] at hv; simp at hv
    rw [this] at hf
    simp at hf
    omega

/-- Applying `Put` operations with pairwise-distinct fresh keys: after each
one, the entry count is `min maxSize (initial + number applied)`. -/
theorem distinct_puts_length {α : Type} (l : List (String × Int × α)) :
    ∀ (c : CertLRUCache α), Inv c → 1 ≤ c.maxSize →
      (l.map Prod.fst).Nodup → (∀ q ∈ l, q.1 ∉ keys c.cache) →
      ∀ i ≤ l.length,
        (applyOps c ((l.take i).map (fun q => Op.put q.1 q.2.1 q.2.2))).cache.length =
          min c.maxSize (c.cache.length + i) := by
  induction l with
  | nil =>
    intro c hInv _ _ _ i hi
    have hi0 : i = 0 := Nat.le_zero.1 hi
    subst hi0
    rw [List.take_nil, List.map_nil]
    have h1 := hInv.length_cache_eq
    have h2 := hInv.size_le
    show c.cache.length = _
    omega
  | cons q l ih =>
    intro c hInv hmax hnd hfresh i hi
    cases i with
    | zero =>
      rw [List.take_zero, List.map_nil]
      have h1 := hInv.length_cache_eq
      have h2 := hInv.size_le
      show c.cache.length = _
      omega
    | succ j =>
      rw [List.take_succ_cons, List.map_cons]
      have happ : applyOps c
            (Op.put q.1 q.2.1 q.2.2 :: (l.take j).map (fun q => Op.put q.1 q.2.1 q.2.2)) =
          applyOps ((Put c q.1 q.2.1 q.2.2).getD c)
            ((l.take j).map (fun q => Op.put q.1 q.2.1 q.2.2)) := rfl
      rw [happ]
      have hm : mapLookup q.1 c.cache = none :=
        mapLookup_eq_none.2 (hfresh q (List.mem_cons_self _ _))
      have hInv1 : Inv ((Put c q.1 q.2.1 q.2.2).getD c) :=
        Inv_Put hInv q.1 q.2.1 q.2.2
      have hms : ((Put c q.1 q.2.1 q.2.2).getD c).maxSize = c.maxSize :=
        Put_getD_maxSize c q.1 q.2.1 q.2.2
      have hlen1 : ((Put c q.1 q.2.1 q.2.2).getD c).cache.length =
          min c.maxSize (c.cache.length + 1) :=
        Put_new_length hInv hmax hm q.2.1 q.2.2
      have hnd' : (l.map Prod.fst).Nodup := (List.nodup_cons.1 hnd).2
      have hq1 : q.1 ∉ l.map Prod.fst := (List.nodup_cons.1 hnd).1
      have hfresh' : ∀ q' ∈ l, q'.1 ∉ keys ((Put c q.1 q.2.1 q.2.2).getD c).cache := by
        intro q' hq' hmem
        rcases Put_getD_keys_sub c q.1 q.2.1 q.2.2 q'.1 hmem with heq | hmem2
        · exact hq1 (heq ▸ List.mem_map_of_mem Prod.fst hq')
        · exact hfresh q' (List.mem_cons_of_mem _ hq') hmem2
      have hj : j ≤ l.length := by
        rw [List.length_cons] at hi
        omega
      rw [ih _ hInv1 (hms ▸ hmax) hnd' hfresh' j hj, hms, hlen1]
      omega

/-! ### maxSize is never modified -/

theorem Get_snd_maxSize (c : CertLRUCache α) (now : Int) (host : String) :
    (Get c now host).2.maxSize = c.maxSize := by
  match hm : mapLookup host c.cache with
  | none => rw [Get_not_mem now hm]
  | some e =>
    by_cases hx : now > e.expiresAt
    · rw [Get_expired hm hx]
    · rw [Get_live hm hx]

theorem applyOp_maxSize (c : CertLRUCache α) (op : Op α) :
    (applyOp c op).maxSize = c.maxSize := by
  cases op with
  | get now host => exact Get_snd_maxSize c now host
  | put host t v => exact Put_getD_maxSize c host t v
  | purge => rfl
  | sweep now => exact sweep_foldl_maxSize now c.cache c

theorem applyOps_maxSize (c : CertLRUCache α) (ops : List (Op α)) :
    (applyOps c ops).maxSize = c.maxSize := by
  induction ops generalizing c with
  | nil => rfl
  | cons op ops ih =>
    rw [applyOps, List.foldl_cons]
    rw [show List.foldl applyOp (applyOp c op) ops = applyOps (applyOp c op) ops from rfl]
    rw [ih (applyOp c op), applyOp_maxSize]

/-! ### Expiry in the snapshot versus map lookup -/

theorem expiredIn_iff_lookup {now : Int} {m : List (String × cacheEntry α)}
    {k : String} (hn : (keys m).Nodup) :
    expiredIn now m k ↔ ∃ e, mapLookup k m = some e ∧ now > e.expiresAt := by
  constructor
  · rintro ⟨p, hp, rfl, hx⟩
    refine ⟨p.2, ?_, hx⟩
    exact mem_mapLookup hn (by rwa [Prod.mk.eta])
  · rintro ⟨e, he, hx⟩
    exact ⟨(k, e), mapLookup_mem he, rfl, hx⟩

/-! ## The claims -/

/-- C7: Purge empties both the mapping and the recency order; a Get of any
key immediately after a Purge returns absent and leaves the purged state
untouched; and Purge is idempotent (Purge after Purge equals one Purge). -/
theorem C7_purge_resets {α : Type} (c : CertLRUCache α) (now : Int)
    (host : String) :
    (Purge c).cache = [] ∧ (Purge c).list = [] ∧
    Get (Purge c) now host = (none, Purge c) ∧
    Purge (Purge c) = Purge c := by
  refine ⟨rfl, rfl, ?_, rfl⟩
  exact Get_not_mem now rfl

/-- C4: Get of a key absent from the mapping returns absent and changes
nothing; Get of a present, unexpired key returns the stored certificate and
moves the key to the most-recently-used front of the recency order, leaving
the mapping unchanged. -/
theorem C4_get_miss_and_live_hit {α : Type} (c : CertLRUCache α)
    (host : String) (now : Int) :
    (mapLookup host c.cache = none → Get c now host = (none, c)) ∧
    (∀ e : cacheEntry α, mapLookup host c.cache = some e →
      ¬ now > e.expiresAt →
      Get c now host =
          (some e.cert, { c with list := host :: c.list.erase host }) ∧
        (Get c now host).2.cache = c.cache ∧
        (Get c now host).2.list.head? = some host) := by
  refine ⟨fun hm => Get_not_mem now hm, ?_⟩
  intro e hm hx
  rw [Get_live hm hx]
  exact ⟨rfl, rfl, rfl⟩

/-- C3: Get of a present but expired key (now strictly after its expiry)
removes exactly that entry from both the mapping and the recency order,
returns absent, decreases both counts by exactly one, and affects no other
key. -/
theorem C3_get_expired_removes {α : Type} (c : CertLRUCache α)
    (host : String) (now : Int) (e : cacheEntry α) (hInv : Inv c)
    (hm : mapLookup host c.cache = some e) (hx : now > e.expiresAt) :
    (Get c now host).1 = none ∧
    mapLookup host (Get c now host).2.cache = none ∧
    host ∉ (Get c now host).2.list ∧
    (Get c now host).2.cache.length + 1 = c.cache.length ∧
    (Get c now host).2.list.length + 1 = c.list.length ∧
    (∀ k, k ≠ host → mapLookup k (Get c now host).2.cache = mapLookup k c.cache) ∧
    (∀ k, k ≠ host → (k ∈ (Get c now host).2.list ↔ k ∈ c.list)) := by
  have hkm : host ∈ keys c.cache := mapLookup_isSome.1 (by rw [hm]; rfl)
  have hlm : host ∈ c.list := hInv.keys_sub host hkm
  rw [Get_expired hm hx]
  refine ⟨rfl, ?_, ?_, ?_, ?_, ?_, ?_⟩
  · exact mapLookup_mapErase_self host c.cache
  · exact hInv.nodup_list.not_mem_erase
  · dsimp only
    exact length_mapErase_of_mem hInv.nodup_keys hkm
  · dsimp only
    rw [List.length_erase_of_mem hlm]
    have h1 : 1 ≤ c.list.length := List.length_pos.2 (List.ne_nil_of_mem hlm)
    omega
  · intro k hk
    exact mapLookup_mapErase_ne c.cache hk
  · intro k hk
    dsimp only
    rw [hInv.nodup_list.mem_erase_iff]
    exact and_iff_right hk

/-- C2: Put of a key absent from the mapping into a cache whose entry count
has reached maxSize performs exactly one eviction before inserting: the
victim is the key at the back of the recency order, it leaves both the
mapping and the order, the new key lands at the most-recently-used front,
and the resulting size does not exceed maxSize. -/
theorem C2_evicts_lru {α : Type} (c : CertLRUCache α) (host : String)
    (t : Int) (v : α) (hInv : Inv c) (hmax : 1 ≤ c.maxSize)
    (hnew : mapLookup host c.cache = none)
    (hfull : c.cache.length ≥ c.maxSize) :
    ∃ c' victim,
      Put c host t v = some c' ∧
      c.list.getLast? = some victim ∧
      victim ∈ keys c.cache ∧
      mapLookup victim c'.cache = none ∧
      victim ∉ c'.list ∧
      c'.list = host :: c.list.dropLast ∧
      mapLookup host c'.cache = some ⟨v, t⟩ ∧
      c'.cache.length = c.cache.length ∧
      c'.cache.length ≤ c.maxSize ∧
      c'.list.length ≤ c.maxSize := by
  have hlcache := hInv.length_cache_eq
  have hsize := hInv.size_le
  have hlist_full : c.list.length ≥ c.maxSize := by omega
  have hne : c.list ≠ [] := by
    intro h0
    rw [h0] at hlist_full
    simp only [List.length_nil] at hlist_full
    omega
  obtain ⟨victim, hv⟩ :=
    Option.isSome_iff_exists.1 (List.getLast?_isSome.2 hne)
  have hvl : victim ∈ c.list := List.mem_of_getLast?_eq_some hv
  have hvk : victim ∈ keys c.cache := hInv.list_sub victim hvl
  have hhk : host ∉ keys c.cache := mapLookup_eq_none.1 hnew
  have hvh : victim ≠ host := fun he => hhk (he ▸ hvk)
  have hhe : host ∉ keys (mapErase victim c.cache) :=
    fun hmem => hhk (mem_keys_mapErase.1 hmem).1
  have hlen1 : 1 ≤ c.list.length := List.length_pos.2 hne
  refine ⟨_, victim, Put_new_evict t v hnew hlist_full hv, hv, hvk,
    ?_, ?_, rfl, ?_, ?_, ?_, ?_⟩
  · dsimp only
    rw [mapLookup_mapInsert_ne _ _ hvh]
    exact mapLookup_mapErase_self victim c.cache
  · dsimp only
    intro hk
    rcases List.mem_cons.1 hk with h1 | h1
    · exact hvh h1
    · exact ((mem_dropLast_of_nodup hInv.nodup_list hv victim).1 h1).2 rfl
  · dsimp only
    exact mapLookup_mapInsert_self host _ _
  · dsimp only
    rw [length_mapInsert_of_not_mem _ hhe]
    have := length_mapErase_of_mem hInv.nodup_keys hvk
    omega
  · dsimp only
    rw [length_mapInsert_of_not_mem _ hhe]
    have := length_mapErase_of_mem hInv.nodup_keys hvk
    omega
  · dsimp only
    rw [List.length_cons, List.length_dropLast]
    omega

/-- C8: under the structural invariant and maxSize ≥ 1, `Put` never reaches
the panic branch of the embedded eviction: it always returns a state, and
whenever the eviction branch is taken (new key, entry count at maxSize) the
back of the recency order exists and is a key bound in the mapping, so
`Back()` is non-nil, its value is a key string and the deleted key is
present. -/
theorem C8_eviction_branch_safe {α : Type} (c : CertLRUCache α)
    (hInv : Inv c) (hmax : 1 ≤ c.maxSize) :
    (∀ (host : String) (t : Int) (v : α), (Put c host t v).isSome) ∧
    (∀ host : String, mapLookup host c.cache = none →
      c.list.length ≥ c.maxSize →
      ∃ victim, c.list.getLast? = some victim ∧ victim ∈ keys c.cache ∧
        (mapLookup victim c.cache).isSome ∧ victim ≠ host) := by
  have hno_nil : c.list.length ≥ c.maxSize → c.list ≠ [] := by
    intro hf h0
    rw [h0] at hf
    simp only [List.length_nil] at hf
    omega
  constructor
  · intro host t v
    rcases Put_cases c host t v with ⟨e, _, hp⟩ | ⟨_, _, hp⟩ |
        ⟨_, _, victim, _, hp⟩ | ⟨_, hf, hl, _⟩
    · rw [hp]; rfl
    · rw [hp]; rfl
    · rw [hp]; rfl
    · have hs := List.getLast?_isSome.2 (hno_nil hf)
      rw [hl] at hs
      simp at hs
  · intro host hm hf
    obtain ⟨victim, hv⟩ :=
      Option.isSome_iff_exists.1 (List.getLast?_isSome.2 (hno_nil hf))
    have hvk : victim ∈ keys c.cache :=
      hInv.list_sub victim (List.mem_of_getLast?_eq_some hv)
    have hhk : host ∉ keys c.cache := mapLookup_eq_none.1 hm
    exact ⟨victim, hv, hvk, mapLookup_isSome.2 hvk,
      fun he => hhk (he ▸ hvk)⟩

/-- C9: Put of a new key with an expiry already in the past still inserts
the entry: the key becomes bound and most-recently-used, it counts toward
capacity (entry count becomes min maxSize (count+1)), a full cache still
evicts its least-recently-used victim, and yet any later Get of that key at
a time past its expiry returns absent (and drops the entry); Put itself
performs no liveness check on the supplied expiry. -/
theorem C9_put_past_expiry_inserts {α : Type} (c : CertLRUCache α)
    (host : String) (t : Int) (v : α) (hInv : Inv c)
    (hmax : 1 ≤ c.maxSize) (hm : mapLookup host c.cache = none) :
    ∃ c', Put c host t v = some c' ∧
      mapLookup host c'.cache = some ⟨v, t⟩ ∧
      c'.list.head? = some host ∧
      c'.cache.length = min c.maxSize (c.cache.length + 1) ∧
      (c.cache.length ≥ c.maxSize →
        ∃ victim, c.list.getLast? = some victim ∧ victim ∈ keys c.cache ∧
          mapLookup victim c'.cache = none) ∧
      (∀ now, now > t →
        (Get c' now host).1 = none ∧
        mapLookup host (Get c' now host).2.cache = none) := by
  have hlcache := hInv.length_cache_eq
  have hsize := hInv.size_le
  have hhk : host ∉ keys c.cache := mapLookup_eq_none.1 hm
  rcases Put_cases c host t v with ⟨e, he, _⟩ | ⟨_, hr, hp⟩ |
      ⟨_, hf, victim, hv, hp⟩ | ⟨_, hf, hl, _⟩
  · rw [hm] at he
    exact absurd he (by simp)
  · refine ⟨_, hp, ?_, ?_, ?_, ?_, ?_⟩
    · exact mapLookup_mapInsert_self host _ _
    · rfl
    · dsimp only
      rw [length_mapInsert_of_not_mem _ hhk]
      omega
    · intro hfc
      omega
    · intro now hnow
      have hget : mapLookup host (mapInsert host ⟨v, t⟩ c.cache) =
          some ⟨v, t⟩ := mapLookup_mapInsert_self host _ _
      rw [Get_expired hget hnow]
      exact ⟨rfl, mapLookup_mapErase_self host _⟩
  · have hvk : victim ∈ keys c.cache :=
      hInv.list_sub victim (List.mem_of_getLast?_eq_some hv)
    have hvh : victim ≠ host := fun he2 => hhk (he2 ▸ hvk)
    have hhe : host ∉ keys (mapErase victim c.cache) :=
      fun hmem => hhk (mem_keys_mapErase.1 hmem).1
    refine ⟨_, hp, ?_, ?_, ?_, ?_, ?_⟩
    · exact mapLookup_mapInsert_self host _ _
    · rfl
    · dsimp only
      rw [length_mapInsert_of_not_mem _ hhe]
      have := length_mapErase_of_mem hInv.nodup_keys hvk
      omega
    · intro _
      refine ⟨victim, hv, hvk, ?_⟩
      dsimp only
      rw [mapLookup_mapInsert_ne _ _ hvh]
      exact mapLookup_mapErase_self victim c.cache
    · intro now hnow
      have hget : mapLookup host
          (mapInsert host ⟨v, t⟩ (mapErase victim c.cache)) = some ⟨v, t⟩ :=
        mapLookup_mapInsert_self host _ _
      rw [Get_expired hget hnow]
      exact ⟨rfl, mapLookup_mapErase_self host _⟩
  · exfalso
    have hne : c.list ≠ [] := by
      intro h0
      rw [h0] at hf
      simp only [List.length_nil] at hf
      omega
    have hs := List.getLast?_isSome.2 hne
    rw [hl] at hs
    simp at hs

/-- Refreshing `Put` on a state where the key is bound: the in-place update
branch, packaged with the facts the refresh claims need. -/
theorem Put_refresh_core {c : CertLRUCache α} {host : String}
    (t : Int) (v : α) {e0 : cacheEntry α} (hInv : Inv c)
    (hm : mapLookup host c.cache = some e0) :
    ∃ c', Put c host t v = some c' ∧ Inv c' ∧
      mapLookup host c'.cache = some ⟨v, t⟩ ∧
      c'.cache.length = c.cache.length ∧
      c'.list.length = c.list.length ∧
      c'.list.head? = some host ∧
      c'.list.count host = 1 ∧
      (keys c'.cache).count host = 1 ∧
      (∀ k, k ≠ host → mapLookup k c'.cache = mapLookup k c.cache) ∧
      (∀ k, k ≠ host → (k ∈ c'.list ↔ k ∈ c.list)) ∧
      (∀ now2, ¬ now2 > t → (Get c' now2 host).1 = some v) := by
  have hkm : host ∈ keys c.cache := mapLookup_isSome.1 (by rw [hm]; rfl)
  have hlm : host ∈ c.list := hInv.keys_sub host hkm
  have hlen1 : 1 ≤ c.list.length := List.length_pos.2 (List.ne_nil_of_mem hlm)
  have hInv' : Inv ((Put c host t v).getD c) := Inv_Put hInv host t v
  rw [Put_update t v hm, Option.getD_some] at hInv'
  refine ⟨_, Put_update t v hm, hInv', ?_, ?_, ?_, rfl, ?_, ?_, ?_, ?_, ?_⟩
  · exact mapLookup_mapInsert_self host _ _
  · dsimp only
    exact length_mapInsert_of_mem _ hInv.nodup_keys hkm
  · dsimp only
    rw [List.length_cons, List.length_erase_of_mem hlm]
    omega
  · exact List.count_eq_one_of_mem hInv'.nodup_list (List.mem_cons_self _ _)
  · refine List.count_eq_one_of_mem hInv'.nodup_keys ?_
    exact mem_keys_mapInsert.2 (Or.inl rfl)
  · intro k hk
    exact mapLookup_mapInsert_ne _ _ hk
  · intro k hk
    dsimp only
    rw [List.mem_cons, hInv.nodup_list.mem_erase_iff]
    constructor
    · rintro (rfl | ⟨_, h2⟩)
      · exact absurd rfl hk
      · exact h2
    · intro h2
      exact Or.inr ⟨hk, h2⟩
  · intro now2 hx2
    rw [Get_live (mapLookup_mapInsert_self host _ _) hx2]

/-- C5: Put of a key already present replaces its value and expiry in place
(no eviction, no capacity check, entry count unchanged) and moves the key to
the most-recently-used front — regardless of whether the old entry had
already expired; consequently after two Puts of the same key exactly one
entry for it exists, it is most-recently-used, and a live Get returns the
second value. -/
theorem C5_put_refresh {α : Type} (c : CertLRUCache α) (host : String)
    (t : Int) (v : α) (e0 : cacheEntry α) (hInv : Inv c)
    (hm : mapLookup host c.cache = some e0) :
    ∃ c', Put c host t v = some c' ∧
      mapLookup host c'.cache = some ⟨v, t⟩ ∧
      c'.cache.length = c.cache.length ∧
      c'.list.length = c.list.length ∧
      c'.list.head? = some host ∧
      c'.list.count host = 1 ∧
      (keys c'.cache).count host = 1 ∧
      (∀ k, k ≠ host → mapLookup k c'.cache = mapLookup k c.cache) ∧
      (∀ k, k ≠ host → (k ∈ c'.list ↔ k ∈ c.list)) ∧
      (∀ (t2 : Int) (v2 : α), ∃ c2, Put c' host t2 v2 = some c2 ∧
        (keys c2.cache).count host = 1 ∧ c2.list.count host = 1 ∧
        mapLookup host c2.cache = some ⟨v2, t2⟩ ∧
        c2.list.head? = some host ∧
        (∀ now2, ¬ now2 > t2 → (Get c2 now2 host).1 = some v2)) := by
  obtain ⟨c', hput, hInv', hlook, hclen, hllen, hhead, hcount, hkcount,
    hothers, homem, _⟩ := Put_refresh_core t v hInv hm
  refine ⟨c', hput, hlook, hclen, hllen, hhead, hcount, hkcount,
    hothers, homem, ?_⟩
  intro t2 v2
  obtain ⟨c2, hput2, _, hlook2, _, _, hhead2, hcount2, hkcount2,
    _, _, hget2⟩ := Put_refresh_core t2 v2 hInv' hlook
  exact ⟨c2, hput2, hkcount2, hcount2, hlook2, hhead2, hget2⟩

/-- C6: one sweep tick at time now removes exactly the entries whose
expiresAt lies strictly in the past (from both the mapping and the recency
order), touches nothing else, preserves the bijection invariant, and is a
no-op on an empty cache or one with no expired entry. -/
theorem C6_sweep_tick {α : Type} (c : CertLRUCache α) (now : Int)
    (hInv : Inv c) :
    (∀ k, mapLookup k (sweepTick c now).cache =
        match mapLookup k c.cache with
        | none => none
        | some e => if now > e.expiresAt then none else some e) ∧
    (∀ k, k ∈ (sweepTick c now).list ↔
        (k ∈ c.list ∧ ∀ e, mapLookup k c.cache = some e →
          ¬ now > e.expiresAt)) ∧
    Inv (sweepTick c now) ∧
    ((∀ p ∈ c.cache, ¬ now > p.2.expiresAt) → sweepTick c now = c) ∧
    (c.cache = [] → sweepTick c now = c) := by
  refine ⟨?_, ?_, Inv_sweepTick hInv now, ?_, ?_⟩
  · intro k
    rw [sweepTick, sweep_foldl_lookup]
    cases hm : mapLookup k c.cache with
    | none => split <;> rfl
    | some e =>
      by_cases hx : now > e.expiresAt
      · have he : expiredIn now c.cache k :=
          ⟨(k, e), mapLookup_mem hm, rfl, hx⟩
        rw [if_pos he]
        simp [hx]
      · have hne : ¬ expiredIn now c.cache k := by
          rw [expiredIn_iff_lookup hInv.nodup_keys]
          rintro ⟨e2, he2, hx2⟩
          rw [hm] at he2
          obtain rfl := Option.some.inj he2
          exact hx hx2
        rw [if_neg hne]
        simp [hx]
  · intro k
    rw [sweepTick, sweep_foldl_list_mem now _ hInv.nodup_list]
    have hiff : ¬ expiredIn now c.cache k ↔
        ∀ e, mapLookup k c.cache = some e → ¬ now > e.expiresAt := by
      rw [expiredIn_iff_lookup hInv.nodup_keys]
      push_neg
      rfl
    rw [hiff]
  · intro h
    exact sweep_foldl_no_expired now c.cache c h
  · intro h
    rw [sweepTick, h]
    rfl

/-- C1: from the empty cache built by New with maxSize ≥ 1, after every
sequence of Get/Put/Purge/sweep-tick operations the number of keys in the
mapping equals the length of the recency order, that number is at most
maxSize, and every key of the mapping occurs exactly once in the recency
order and vice versa; moreover for every sequence of Puts with pairwise
distinct keys, after the i-th call the resident entry count is
min maxSize i. -/
theorem C1_state_invariants (α : Type) (maxSize : Nat) (hmax : 1 ≤ maxSize) :
    (∀ ops : List (Op α),
      (applyOps (NewCertLRUCache α maxSize) ops).cache.length =
          (applyOps (NewCertLRUCache α maxSize) ops).list.length ∧
      (applyOps (NewCertLRUCache α maxSize) ops).cache.length ≤ maxSize ∧
      (∀ k ∈ keys (applyOps (NewCertLRUCache α maxSize) ops).cache,
        (applyOps (NewCertLRUCache α maxSize) ops).list.count k = 1) ∧
      (∀ k ∈ (applyOps (NewCertLRUCache α maxSize) ops).list,
        (keys (applyOps (NewCertLRUCache α maxSize) ops).cache).count k = 1)) ∧
    (∀ puts : List (String × Int × α), (puts.map Prod.fst).Nodup →
      ∀ i ≤ puts.length,
        (applyOps (NewCertLRUCache α maxSize)
          ((puts.take i).map (fun q => Op.put q.1 q.2.1 q.2.2))).cache.length =
        min maxSize i) := by
  constructor
  · intro ops
    have hInv := Inv_applyOps (Inv_new α maxSize) ops
    have hms := applyOps_maxSize (NewCertLRUCache α maxSize) ops
    refine ⟨hInv.length_cache_eq, ?_, ?_, ?_⟩
    · rw [hInv.length_cache_eq]
      calc (applyOps (NewCertLRUCache α maxSize) ops).list.length
          ≤ (applyOps (NewCertLRUCache α maxSize) ops).maxSize := hInv.size_le
        _ = maxSize := hms
    · intro k hk
      exact List.count_eq_one_of_mem hInv.nodup_list (hInv.keys_sub k hk)
    · intro k hk
      exact List.count_eq_one_of_mem hInv.nodup_keys (hInv.list_sub k hk)
  · intro puts hnd i hi
    have h := distinct_puts_length puts (NewCertLRUCache α maxSize)
      (Inv_new α maxSize) hmax hnd
      (by intro q _ hq; simp [NewCertLRUCache, keys] at hq) i hi
    rw [h]
    show min maxSize (0 + i) = min maxSize i
    rw [Nat.zero_add]

/-! ## Concrete witnesses -/

theorem C1_state_invariants_witness :
    (applyOps (NewCertLRUCache Nat 2)
      (([("a", (10 : Int), (0 : Nat)), ("b", 10, 1), ("c", 10, 2)].take 3).map
        (fun q => Op.put q.1 q.2.1 q.2.2))).cache.length = min 2 3 :=
  (C1_state_invariants Nat 2 (by decide)).2
    [("a", 10, 0), ("b", 10, 1), ("c", 10, 2)] (by decide) 3 (by decide)

theorem C2_evicts_lru_witness :
    ∃ c' victim,
      Put (CertLRUCache.mk 1 ["a"] [("a", ⟨0, 5⟩)] : CertLRUCache Nat)
        "b" 9 7 = some c' ∧
      (CertLRUCache.mk 1 ["a"] [("a", ⟨0, 5⟩)] :
        CertLRUCache Nat).list.getLast? = some victim ∧
      mapLookup victim c'.cache = none := by
  obtain ⟨c', victim, hput, hlast, -, hgone, -⟩ :=
    C2_evicts_lru (CertLRUCache.mk 1 ["a"] [("a", ⟨0, 5⟩)] : CertLRUCache Nat)
      "b" 9 7 (by decide) (by decide) (by decide) (by decide)
  exact ⟨c', victim, hput, hlast, hgone⟩

theorem C3_get_expired_removes_witness :
    (Get (CertLRUCache.mk 1 ["a"] [("a", ⟨0, 5⟩)] : CertLRUCache Nat) 6 "a").1
        = none ∧
      (Get (CertLRUCache.mk 1 ["a"] [("a", ⟨0, 5⟩)] : CertLRUCache Nat)
        6 "a").2.cache.length + 1 = 1 := by
  obtain ⟨h1, -, -, h4, -⟩ :=
    C3_get_expired_removes (CertLRUCache.mk 1 ["a"] [("a", ⟨0, 5⟩)])
      "a" 6 ⟨0, 5⟩ (by decide) (by decide) (by decide)
  exact ⟨h1, h4⟩

theorem C4_get_miss_and_live_hit_witness :
    Get (CertLRUCache.mk 2 ["a"] [("a", ⟨3, 5⟩)] : CertLRUCache Nat) 4 "b" =
        (none, CertLRUCache.mk 2 ["a"] [("a", ⟨3, 5⟩)]) ∧
      (Get (CertLRUCache.mk 2 ["a"] [("a", ⟨3, 5⟩)] :
        CertLRUCache Nat) 4 "a").1 = some 3 := by
  have h1 := C4_get_miss_and_live_hit
    (CertLRUCache.mk 2 ["a"] [("a", ⟨3, 5⟩)] : CertLRUCache Nat) "b" 4
  have h2 := C4_get_miss_and_live_hit
    (CertLRUCache.mk 2 ["a"] [("a", ⟨3, 5⟩)] : CertLRUCache Nat) "a" 4
  refine ⟨h1.1 (by decide), ?_⟩
  rw [(h2.2 ⟨3, 5⟩ (by decide) (by decide)).1]

theorem C5_put_refresh_witness :
    ∃ c', Put (CertLRUCache.mk 2 ["a"] [("a", ⟨0, 5⟩)] : CertLRUCache Nat)
        "a" 10 1 = some c' ∧
      c'.list.count "a" = 1 ∧ c'.cache.length = 1 := by
  obtain ⟨c', hput, -, hclen, -, -, hcount, -⟩ :=
    C5_put_refresh (CertLRUCache.mk 2 ["a"] [("a", ⟨0, 5⟩)]) "a" 10 1 ⟨0, 5⟩
      (by decide) (by decide)
  exact ⟨c', hput, hcount, hclen⟩

theorem C6_sweep_tick_witness :
    sweepTick (CertLRUCache.mk 2 ["a"] [("a", ⟨0, 5⟩)] : CertLRUCache Nat) 4 =
      CertLRUCache.mk 2 ["a"] [("a", ⟨0, 5⟩)] :=
  (C6_sweep_tick (CertLRUCache.mk 2 ["a"] [("a", ⟨0, 5⟩)]) 4
    (by decide)).2.2.2.1 (by decide)

theorem C8_eviction_branch_safe_witness :
    (Put (CertLRUCache.mk 1 ["a"] [("a", ⟨0, 5⟩)] : CertLRUCache Nat)
      "c" 11 8).isSome :=
  (C8_eviction_branch_safe (CertLRUCache.mk 1 ["a"] [("a", ⟨0, 5⟩)])
    (by decide) (by decide)).1 "c" 11 8

theorem C9_put_past_expiry_inserts_witness :
    ∃ c', Put (CertLRUCache.mk 1 ["a"] [("a", ⟨0, 5⟩)] : CertLRUCache Nat)
        "b" (-3) 7 = some c' ∧
      mapLookup "b" c'.cache = some ⟨7, -3⟩ := by
  obtain ⟨c', hput, hlook, -⟩ :=
    C9_put_past_expiry_inserts (CertLRUCache.mk 1 ["a"] [("a", ⟨0, 5⟩)])
      "b" (-3) 7 (by decide) (by decide) (by decide)
  exact ⟨c', hput, hlook⟩

end Certmanager
